import Mathlib

set_option maxHeartbeats 1000000

/-!
Shallow embedding of the RouteMaster shortest-path program (`src/code.cpp`).

The program is a `Map` class holding an adjacency array `adj` of
`vector<pair<int,int>>` (one list of `(neighbor, weight)` pairs per location),
built by `Map::addDist`, and queried by `Map::dijkstra`, which runs a
decrease-key variant of Dijkstra over a `std::set<pair<int,int>>` frontier and
then prints `dist[dest]` together with the path recovered from the `parent`
array by the recursive `Map::displayPath`.

C++ `int` is modelled as unbounded `Int` (signed overflow in the source is
undefined behavior; no theorem below rests on an input whose C++ execution
overflows), with the sentinel `INT_MAX` modelled by its concrete value
`2147483647`.  Location indices are modelled as `Nat`; every claim under
consideration constrains them to `[0, L)`.
-/

/-- The C++ `INT_MAX` sentinel used by the program for "infinite" distances. -/
def INTMAX : Int := 2147483647

/-- Adjacency structure of the program: one list of `(neighbor, weight)`
pairs per location, in insertion order (`vector<pair<int,int>>* adj`). -/
abbrev Adj := List (List (Nat × Int))

/-- The `Map` class: number of locations `L` and the adjacency lists. -/
structure Map where
  L : Nat
  adj : Adj

/-- `Map::Map(int L)`: allocates `L` empty adjacency lists. -/
def mkMap (L : Nat) : Map :=
  ⟨L, List.replicate L []⟩

/-- `Map::addDist(int u, int v, int Distance)`: appends `(v, Distance)` to
`adj[u]` and `(u, Distance)` to `adj[v]`, with no validation of any kind.
An out-of-range index is undefined behavior in the C++ source; here
`List.set` leaves the list unchanged for an out-of-range index. -/
def Map.addDist (m : Map) (u v : Nat) (d : Int) : Map :=
  let a1 := m.adj.set u ((m.adj.getD u []) ++ [(v, d)])
  let a2 := a1.set v ((a1.getD v []) ++ [(u, d)])
  ⟨m.L, a2⟩

/-- Lexicographic order on the `(distance, location)` pairs stored in the
`std::set<pair<int,int>>` frontier. -/
def lexLe (a b : Int × Nat) : Prop :=
  a.1 < b.1 ∨ (a.1 = b.1 ∧ a.2 ≤ b.2)

instance : DecidableRel lexLe := fun a b => by
  unfold lexLe; infer_instance

/-- `std::set::insert`: no effect if the element is already present, otherwise
the element is placed at its ordered position. -/
def sinsert (x : Int × Nat) (l : List (Int × Nat)) : List (Int × Nat) :=
  if x ∈ l then l else List.orderedInsert lexLe x l

/-- The local state of `Map::dijkstra`: the `dist` and `parent` vectors and
the `std::set<pair<int,int>>` frontier `st` (kept in ascending order, so its
first element is `*st.begin()`). -/
structure DState where
  dist : List Int
  parent : List Int
  frontier : List (Int × Nat)

/-- The body of the inner `for (auto& nbr : adj[u])` loop of `Map::dijkstra`:
if `dist[v] > dist[u] + Distance`, erase the stale frontier entry
`{dist[v], v}` (when `dist[v] != INT_MAX`), set `dist[v] = dist[u] + Distance`,
insert `{dist[v], v}`, and set `parent[v] = u`. -/
def relaxNbr (u : Nat) (s : DState) (nbr : Nat × Int) : DState :=
  let v := nbr.1
  let w := nbr.2
  if s.dist.getD u 0 + w < s.dist.getD v 0 then
    let f1 := if s.dist.getD v 0 ≠ INTMAX then s.frontier.erase (s.dist.getD v 0, v)
              else s.frontier
    { dist := s.dist.set v (s.dist.getD u 0 + w)
      parent := s.parent.set v (u : Int)
      frontier := sinsert (s.dist.getD u 0 + w, v) f1 }
  else s

/-- One iteration of the `while (!st.empty())` loop of `Map::dijkstra`:
pop `p = *st.begin()`, `st.erase(p)`, and relax every neighbor of
`u = p.second`.  Identity on an empty frontier. -/
def dstep (adj : Adj) (s : DState) : DState :=
  match s.frontier with
  | [] => s
  | p :: _ =>
    (adj.getD p.2 []).foldl (relaxNbr p.2) { s with frontier := s.frontier.erase p }

/-- The `while (!st.empty())` loop of `Map::dijkstra`, with explicit fuel
(the C++ loop can diverge on negative-weight inputs). -/
def drun (adj : Adj) : Nat → DState → Option DState
  | 0, _ => none
  | n + 1, s => if s.frontier.isEmpty then some s else drun adj n (dstep adj s)

/-- `Map::displayPath`: follows `parent` links from `j` down to the `-1`
sentinel, printing each visited location on the way back up.  The extra fuel
argument makes the recursion total; the C++ recursion diverges on a cyclic
`parent` array. -/
def displayPath (parent : List Int) : Nat → Nat → List Nat
  | 0, _ => []
  | fu + 1, j =>
    if parent.getD j (-1) = -1 then []
    else displayPath parent fu (parent.getD j (-1)).toNat ++ [j]

/-- The state of `Map::dijkstra` when the `while` loop is first entered:
`dist` is `INT_MAX` everywhere except `dist[src] = 0`, `parent` is `-1`
everywhere, and the frontier holds the single entry `{0, src}`. -/
def initState (L src : Nat) : DState :=
  { dist := (List.replicate L INTMAX).set src 0
    parent := List.replicate L (-1)
    frontier := sinsert (0, src) [] }

/-- `Map::dijkstra(int src, int dest)` followed by
`Map::printShortestPath`: initializes `dist` to `INT_MAX` except
`dist[src] = 0`, `parent` to `-1`, seeds the frontier with `{0, src}`, runs
the relaxation loop, and reports `dist[dest]` together with the printed
location sequence `src :: displayPath(parent, dest)`. -/
def Map.dijkstra (m : Map) (src dest : Nat) (fuel : Nat) : Option (Int × List Nat) :=
  (drun m.adj fuel (initState m.L src)).map fun s =>
    (s.dist.getD dest 0, src :: displayPath s.parent m.L dest)

/-- Well-formed adjacency structure for location count `L`: one list per
location and every stored neighbor index in range. -/
def WFAdj (adj : Adj) (L : Nat) : Prop :=
  adj.length = L ∧ ∀ l ∈ adj, ∀ p ∈ l, p.1 < L

/-- All stored connection weights are non-negative. -/
def NonnegW (adj : Adj) : Prop :=
  ∀ l ∈ adj, ∀ p ∈ l, 0 ≤ p.2

instance (adj : Adj) (L : Nat) : Decidable (WFAdj adj L) := by
  unfold WFAdj; infer_instance

instance (adj : Adj) : Decidable (NonnegW adj) := by
  unfold NonnegW; infer_instance

/-- A walk through the adjacency structure from `u` to `t` of total weight
`c`: each step moves along one stored `(neighbor, weight)` entry. -/
inductive Walk (adj : Adj) : Nat → Nat → Int → Prop
  | nil (u : Nat) : Walk adj u u 0
  | cons {u t : Nat} {c : Int} (v : Nat) (w : Int) :
      (v, w) ∈ adj.getD u [] → Walk adj v t c → Walk adj u t (w + c)

/-- `x` is the minimum total weight over all walks from `s` to `t`. -/
def IsMinWalk (adj : Adj) (s t : Nat) (x : Int) : Prop :=
  Walk adj s t x ∧ ∀ c, Walk adj s t c → x ≤ c

/-- The hardcoded 9-location reference graph built by `main`. -/
def refMap : Map :=
  (((((((((((((((mkMap 9).addDist 0 1 4).addDist 0 7 8).addDist 1 2 8).addDist
    1 7 11).addDist 2 3 7).addDist 2 8 2).addDist 2 5 4).addDist 3 4 9).addDist
    3 5 14).addDist 4 5 10).addDist 5 6 2).addDist 6 7 1).addDist 6 8 6).addDist
    7 8 7)

/-! ### Basic list helper lemmas -/

theorem getD_set_self {α : Type*} {l : List α} {v : Nat} (h : v < l.length)
    (x d : α) : (l.set v x).getD v d = x := by
  induction l generalizing v with
  | nil => simp at h
  | cons a l ih =>
    cases v with
    | zero => rfl
    | succ v => exact ih (by simpa using h) ..

theorem getD_set_ne {α : Type*} {l : List α} {v i : Nat} (h : v ≠ i)
    (x d : α) : (l.set v x).getD i d = l.getD i d := by
  induction l generalizing v i with
  | nil => rfl
  | cons a l ih =>
    cases v with
    | zero => cases i with
      | zero => exact absurd rfl h
      | succ i => rfl
    | succ v => cases i with
      | zero => rfl
      | succ i => exact ih (fun hc => h (by omega)) ..

theorem getD_replicate {α : Type*} {n i : Nat} (h : i < n) (a d : α) :
    (List.replicate n a).getD i d = a := by
  induction n generalizing i with
  | zero => omega
  | succ n ih =>
    cases i with
    | zero => rfl
    | succ i => exact ih (by omega)

theorem getD_pos_mem {α : Type*} {l : List α} {i : Nat} (h : i < l.length)
    (d : α) : l.getD i d ∈ l := by
  induction l generalizing i with
  | nil => simp at h
  | cons a l ih =>
    cases i with
    | zero => exact List.mem_cons_self ..
    | succ i => exact List.mem_cons_of_mem _ (ih (by simpa using h))

/-! ### Frontier (`std::set`) helper lemmas -/

theorem mem_sinsert {x y : Int × Nat} {l : List (Int × Nat)} :
    y ∈ sinsert x l ↔ y = x ∨ y ∈ l := by
  unfold sinsert
  split
  · constructor
    · exact fun h => Or.inr h
    · rintro (rfl | h) <;> assumption
  · exact List.mem_orderedInsert lexLe

theorem sinsert_nodup {x : Int × Nat} {l : List (Int × Nat)} (h : l.Nodup) :
    (sinsert x l).Nodup := by
  unfold sinsert
  split
  · exact h
  · next hx =>
    exact ((List.perm_orderedInsert lexLe x l).nodup_iff).mpr (List.nodup_cons.mpr ⟨hx, h⟩)

theorem sinsert_length_le {x : Int × Nat} {l : List (Int × Nat)} :
    (sinsert x l).length ≤ l.length + 1 := by
  unfold sinsert
  split
  · omega
  · rw [(List.perm_orderedInsert lexLe x l).length_eq]
    simp

theorem erase_length_le {x : Int × Nat} {l : List (Int × Nat)} :
    (l.erase x).length ≤ l.length :=
  List.length_erase_le ..

/-! ### Walk lemmas -/

theorem Walk.nonneg {adj : Adj} (hw : NonnegW adj) {u t : Nat} {c : Int}
    (h : Walk adj u t c) : 0 ≤ c := by
  induction h with
  | nil => omega
  | @cons u' t' c' v w hmem _ ih =>
    rcases Nat.lt_or_ge u' adj.length with hu | hu
    · have h0 : 0 ≤ (v, w).2 := hw _ (getD_pos_mem hu []) (v, w) hmem
      simp only at h0
      omega
    · rw [List.getD_eq_default _ _ hu] at hmem
      simp at hmem

theorem Walk.snoc {adj : Adj} {s u : Nat} {c : Int} (h : Walk adj s u c)
    {v : Nat} {w : Int} (hmem : (v, w) ∈ adj.getD u []) :
    Walk adj s v (c + w) := by
  induction h with
  | nil u => simpa using Walk.cons v w hmem (Walk.nil v)
  | cons v' w' hmem' _ ih =>
    have := Walk.cons v' w' hmem' (ih hmem)
    rwa [← add_assoc] at this

/-! ### Loop invariants of `Map::dijkstra` -/

/-- Core invariant of the relaxation loop (independent of weight signs):
array lengths are stable, every frontier entry is in range, is keyed by the
current tentative distance of its location, and carries a finite key, the
frontier has no duplicate entries, tentative distances never exceed the
`INT_MAX` sentinel, every finite tentative distance is realized by an actual
walk from the source, and a location still at the sentinel still has the
`-1` parent. -/
structure DInv (adj : Adj) (L src : Nat) (s : DState) : Prop where
  hdl : s.dist.length = L
  hpl : s.parent.length = L
  hfr : ∀ p ∈ s.frontier, p.2 < L ∧ p.1 = s.dist.getD p.2 0 ∧ p.1 < INTMAX
  hnd : s.frontier.Nodup
  hub : ∀ v, s.dist.getD v 0 ≤ INTMAX
  hsound : ∀ v, v < L → s.dist.getD v 0 < INTMAX → Walk adj src v (s.dist.getD v 0)
  hpinf : ∀ v, s.dist.getD v 0 = INTMAX → s.parent.getD v (-1) = -1

/-- Additional invariant available when all weights are non-negative:
tentative distances stay non-negative and the source keeps distance `0` and
parent `-1`. -/
structure DInvN (src : Nat) (s : DState) : Prop where
  hnn : ∀ v, 0 ≤ s.dist.getD v 0
  hsrc : s.dist.getD src 0 ≤ 0
  hpsrc : s.parent.getD src (-1) = -1

/-- Location `u` has no entry in the frontier. -/
def ClosedAt (s : DState) (u : Nat) : Prop :=
  ∀ d, (d, u) ∉ s.frontier

/-- All edges out of `x` are relaxed in state `s`. -/
def Relaxed (adj : Adj) (s : DState) (x : Nat) : Prop :=
  ∀ p ∈ adj.getD x [], s.dist.getD p.1 0 ≤ s.dist.getD x 0 + p.2

/-- Every finalized (finite-distance, frontier-free) location is fully
relaxed. -/
def DInvC (adj : Adj) (L : Nat) (s : DState) : Prop :=
  ∀ x, x < L → s.dist.getD x 0 < INTMAX → ClosedAt s x → Relaxed adj s x

/-- Preservation of the core invariant by a single relaxation of a neighbor
`nbr` of a popped location `u` with finite distance, together with
monotonicity of the distance array and lockstep updating of the parent
array. -/
theorem relax_core {adj : Adj} {L src u : Nat} (hwf : WFAdj adj L) (hu : u < L)
    {s : DState} {nbr : Nat × Int} (hnbr : nbr ∈ adj.getD u [])
    (hs : DInv adj L src s) (hfin : s.dist.getD u 0 < INTMAX) :
    DInv adj L src (relaxNbr u s nbr) ∧
    (relaxNbr u s nbr).dist.getD u 0 < INTMAX ∧
    (∀ x, (relaxNbr u s nbr).dist.getD x 0 ≤ s.dist.getD x 0) ∧
    (∀ x, (relaxNbr u s nbr).dist.getD x 0 ≠ s.dist.getD x 0 →
      (relaxNbr u s nbr).dist.getD x 0 < s.dist.getD x 0 ∧
      (relaxNbr u s nbr).dist.getD x 0 < INTMAX ∧
      (relaxNbr u s nbr).parent.getD x (-1) = (u : Int)) ∧
    (∀ x, (relaxNbr u s nbr).dist.getD x 0 = s.dist.getD x 0 →
      (relaxNbr u s nbr).parent.getD x (-1) = s.parent.getD x (-1)) := by
  obtain ⟨v, w⟩ := nbr
  by_cases hc : s.dist.getD u 0 + w < s.dist.getD v 0
  case neg =>
    have he : relaxNbr u s (v, w) = s := by
      simp only [relaxNbr, if_neg hc]
    rw [he]
    exact ⟨hs, hfin, fun _ => le_refl _, fun x hx => absurd rfl hx, fun _ _ => rfl⟩
  case pos =>
    have hvL : v < L := hwf.2 _ (getD_pos_mem (hwf.1 ▸ hu) []) _ hnbr
    have hvd : v < s.dist.length := hs.hdl ▸ hvL
    have hvp : v < s.parent.length := hs.hpl ▸ hvL
    have hubv := hs.hub v
    simp only [relaxNbr, if_pos hc]
    set old := s.dist.getD v 0 with hold
    set nd := s.dist.getD u 0 + w with hnd
    set f1 := if old ≠ INTMAX then s.frontier.erase (old, v) else s.frontier with hf1
    have hndIM : nd < INTMAX := by omega
    have hf1sub : ∀ q ∈ f1, q ∈ s.frontier := by
      intro q hq
      rw [hf1] at hq
      split at hq
      · exact List.mem_of_mem_erase hq
      · exact hq
    have hf1nodup : f1.Nodup := by
      rw [hf1]
      split
      · exact hs.hnd.erase _
      · exact hs.hnd
    have hf1v : ∀ d, (d, v) ∉ f1 := by
      intro d hdmem
      have hmem := hf1sub _ hdmem
      have hkey := (hs.hfr _ hmem).2.1
      simp only at hkey
      rw [hf1] at hdmem
      split at hdmem
      · exact (hs.hnd.mem_erase_iff.mp hdmem).1 (by rw [hkey, hold])
      · next hIM =>
        have := (hs.hfr _ hmem).2.2
        simp only at this
        push_neg at hIM
        rw [hkey, ← hold] at this
        omega
    have hgv : (s.dist.set v nd).getD v 0 = nd := getD_set_self hvd ..
    have hgne : ∀ x, x ≠ v → (s.dist.set v nd).getD x 0 = s.dist.getD x 0 :=
      fun x hx => getD_set_ne (fun h => hx h.symm) ..
    have hpv : (s.parent.set v (u : Int)).getD v (-1) = (u : Int) := getD_set_self hvp ..
    have hpne : ∀ x, x ≠ v → (s.parent.set v (u : Int)).getD x (-1) = s.parent.getD x (-1) :=
      fun x hx => getD_set_ne (fun h => hx h.symm) ..
    refine ⟨⟨?_, ?_, ?_, ?_, ?_, ?_, ?_⟩, ?_, ?_, ?_, ?_⟩
    · simpa using hs.hdl
    · simpa using hs.hpl
    · intro q hq
      rcases mem_sinsert.mp hq with rfl | hq
      · exact ⟨hvL, hgv.symm, hndIM⟩
      · obtain ⟨d, x⟩ := q
        have hxv : x ≠ v := by
          intro h
          exact hf1v d (h ▸ hq)
        obtain ⟨h1, h2, h3⟩ := hs.hfr _ (hf1sub _ hq)
        refine ⟨h1, ?_, h3⟩
        simp only at h2 ⊢
        rw [hgne x hxv]
        exact h2
    · exact sinsert_nodup hf1nodup
    · intro x
      by_cases hx : x = v
      · subst hx; rw [hgv]; omega
      · rw [hgne x hx]; exact hs.hub x
    · intro x hxL hxlt
      by_cases hx : x = v
      · subst hx
        rw [hgv]
        exact (hs.hsound u hu hfin).snoc hnbr
      · rw [hgne x hx] at hxlt ⊢
        exact hs.hsound x hxL hxlt
    · intro x hxIM
      by_cases hx : x = v
      · subst hx
        rw [hgv] at hxIM
        omega
      · rw [hgne x hx] at hxIM
        rw [hpne x hx]
        exact hs.hpinf x hxIM
    · by_cases hx : u = v
      · rw [hx, hgv]; exact hndIM
      · rw [hgne u hx]; exact hfin
    · intro x
      by_cases hx : x = v
      · subst hx; rw [hgv]; omega
      · rw [hgne x hx]
    · intro x hne
      by_cases hx : x = v
      · subst hx
        rw [hgv] at hne ⊢
        exact ⟨by omega, hndIM, hpv⟩
      · exact absurd (hgne x hx) hne
    · intro x heq
      by_cases hx : x = v
      · subst hx
        rw [hgv] at heq
        omega
      · exact hpne x hx

/-- Preservation of the core invariant across the whole inner neighbor loop
of one iteration, with distance monotonicity and parent lockstep. -/
theorem fold_core {adj : Adj} {L src u : Nat} (hwf : WFAdj adj L) (hu : u < L) :
    ∀ (rest : List (Nat × Int)) (s : DState), (∀ p ∈ rest, p ∈ adj.getD u []) →
    DInv adj L src s → s.dist.getD u 0 < INTMAX →
    DInv adj L src (rest.foldl (relaxNbr u) s) ∧
    (rest.foldl (relaxNbr u) s).dist.getD u 0 < INTMAX ∧
    (∀ x, (rest.foldl (relaxNbr u) s).dist.getD x 0 ≤ s.dist.getD x 0) ∧
    (∀ x, (rest.foldl (relaxNbr u) s).dist.getD x 0 ≠ s.dist.getD x 0 →
      (rest.foldl (relaxNbr u) s).dist.getD x 0 < s.dist.getD x 0 ∧
      (rest.foldl (relaxNbr u) s).dist.getD x 0 < INTMAX ∧
      (rest.foldl (relaxNbr u) s).parent.getD x (-1) = (u : Int)) ∧
    (∀ x, (rest.foldl (relaxNbr u) s).dist.getD x 0 = s.dist.getD x 0 →
      (rest.foldl (relaxNbr u) s).parent.getD x (-1) = s.parent.getD x (-1)) := by
  intro rest
  induction rest with
  | nil =>
    intro s _ hs hfin
    exact ⟨hs, hfin, fun _ => le_refl _, fun x hx => absurd rfl hx, fun _ _ => rfl⟩
  | cons nbr rest ih =>
    intro s hsub hs hfin
    obtain ⟨h1, h2, h3, h4, h5⟩ := relax_core hwf hu (hsub nbr (List.mem_cons_self ..)) hs hfin
    obtain ⟨g1, g2, g3, g4, g5⟩ :=
      ih (relaxNbr u s nbr) (fun p hp => hsub p (List.mem_cons_of_mem _ hp)) h1 h2
    rw [List.foldl_cons]
    refine ⟨g1, g2, fun x => le_trans (g3 x) (h3 x), ?_, ?_⟩
    · intro x hne
      by_cases hgx : (rest.foldl (relaxNbr u) (relaxNbr u s nbr)).dist.getD x 0 =
          (relaxNbr u s nbr).dist.getD x 0
      · have hrne : (relaxNbr u s nbr).dist.getD x 0 ≠ s.dist.getD x 0 := by
          rw [← hgx]; exact hne
        obtain ⟨c1, c2, c3⟩ := h4 x hrne
        refine ⟨by rw [hgx]; exact c1, by rw [hgx]; exact c2, ?_⟩
        rw [g5 x hgx]
        exact c3
      · obtain ⟨c1, c2, c3⟩ := g4 x hgx
        exact ⟨lt_of_lt_of_le c1 (h3 x), c2, c3⟩
    · intro x heq
      have g33 := g3 x
      rw [heq] at g33
      have hrel : (relaxNbr u s nbr).dist.getD x 0 = s.dist.getD x 0 :=
        le_antisymm (h3 x) g33
      rw [g5 x (by rw [heq, ← hrel]), h5 x hrel]

/-- Sum of the (clamped-to-zero) entries of the distance vector, used in the
termination measure of the relaxation loop. -/
def sumD : List Int → Nat
  | [] => 0
  | a :: l => a.toNat + sumD l

theorem sumD_set {l : List Int} {v : Nat} (h : v < l.length) (x : Int) :
    sumD (l.set v x) + (l.getD v 0).toNat = sumD l + x.toNat := by
  induction l generalizing v with
  | nil => simp at h
  | cons a l ih =>
    cases v with
    | zero => simp only [List.set_cons_zero, sumD, List.getD_cons_zero]; omega
    | succ v =>
      have := ih (v := v) (by simpa using h)
      simp only [List.set_cons_succ, sumD, List.getD_cons_succ]
      omega

/-- Preservation of the non-negative-weight extras by a single relaxation:
non-negativity of distances, source fixedness, closedness of the popped
location, relaxedness of other finalized locations, relaxedness of the
processed edge, and non-increase of the termination measure. -/
theorem relax_extra {adj : Adj} {L src u : Nat} (hwf : WFAdj adj L) (hu : u < L)
    (hnw : NonnegW adj) {s : DState} {nbr : Nat × Int} (hnbr : nbr ∈ adj.getD u [])
    (hs : DInv adj L src s) (hfin : s.dist.getD u 0 < INTMAX)
    (hN : DInvN src s) (hcu : ClosedAt s u)
    (hmid : ∀ x, x < L → x ≠ u → s.dist.getD x 0 < INTMAX → ClosedAt s x → Relaxed adj s x) :
    DInvN src (relaxNbr u s nbr) ∧
    ClosedAt (relaxNbr u s nbr) u ∧
    (relaxNbr u s nbr).dist.getD u 0 = s.dist.getD u 0 ∧
    (∀ x, x < L → x ≠ u → (relaxNbr u s nbr).dist.getD x 0 < INTMAX →
      ClosedAt (relaxNbr u s nbr) x → Relaxed adj (relaxNbr u s nbr) x) ∧
    ((relaxNbr u s nbr).dist.getD nbr.1 0 ≤ (relaxNbr u s nbr).dist.getD u 0 + nbr.2) ∧
    (2 * sumD (relaxNbr u s nbr).dist + (relaxNbr u s nbr).frontier.length ≤
      2 * sumD s.dist + s.frontier.length) := by
  obtain ⟨v, w⟩ := nbr
  have hw0 : 0 ≤ (v, w).2 := hnw _ (getD_pos_mem (hwf.1 ▸ hu) []) (v, w) hnbr
  simp only at hw0
  by_cases hc : s.dist.getD u 0 + w < s.dist.getD v 0
  case neg =>
    have he : relaxNbr u s (v, w) = s := by
      simp only [relaxNbr, if_neg hc]
    rw [he]
    refine ⟨hN, hcu, rfl, hmid, ?_, le_refl _⟩
    simp only
    omega
  case pos =>
    have hvL : v < L := hwf.2 _ (getD_pos_mem (hwf.1 ▸ hu) []) _ hnbr
    have hvd : v < s.dist.length := hs.hdl ▸ hvL
    have hvp : v < s.parent.length := hs.hpl ▸ hvL
    have hubv := hs.hub v
    have hnnu := hN.hnn u
    have hvu : v ≠ u := by
      intro h
      subst h
      omega
    have hvsrc : v ≠ src := by
      intro h
      subst h
      have := hN.hsrc
      omega
    simp only [relaxNbr, if_pos hc]
    set old := s.dist.getD v 0 with hold
    set nd := s.dist.getD u 0 + w with hnd
    set f1 := if old ≠ INTMAX then s.frontier.erase (old, v) else s.frontier with hf1
    have hf1sub : ∀ q ∈ f1, q ∈ s.frontier := by
      intro q hq
      rw [hf1] at hq
      split at hq
      · exact List.mem_of_mem_erase hq
      · exact hq
    have hf1len : f1.length ≤ s.frontier.length := by
      rw [hf1]
      split
      · exact erase_length_le
      · exact le_refl _
    have hgv : (s.dist.set v nd).getD v 0 = nd := getD_set_self hvd ..
    have hgne : ∀ x, x ≠ v → (s.dist.set v nd).getD x 0 = s.dist.getD x 0 :=
      fun x hx => getD_set_ne (fun h => hx h.symm) ..
    have hpne : ∀ x, x ≠ v → (s.parent.set v (u : Int)).getD x (-1) = s.parent.getD x (-1) :=
      fun x hx => getD_set_ne (fun h => hx h.symm) ..
    have hmono : ∀ x, (s.dist.set v nd).getD x 0 ≤ s.dist.getD x 0 := by
      intro x
      by_cases hx : x = v
      · subst hx; rw [hgv]; omega
      · rw [hgne x hx]
    refine ⟨⟨?_, ?_, ?_⟩, ?_, hgne u (Ne.symm hvu), ?_, ?_, ?_⟩
    · intro x
      by_cases hx : x = v
      · subst hx; rw [hgv]; omega
      · rw [hgne x hx]; exact hN.hnn x
    · rw [hgne src (Ne.symm hvsrc)]; exact hN.hsrc
    · rw [hpne src (Ne.symm hvsrc)]; exact hN.hpsrc
    · intro d hd
      rcases mem_sinsert.mp hd with he | hd2
      · exact hvu (by injection he with h1 h2; exact h2.symm) |>.elim
      · exact hcu d (hf1sub _ hd2)
    · intro x hxL hxu hxIM hclx
      by_cases hx : x = v
      · subst hx
        exact absurd (mem_sinsert.mpr (Or.inl rfl)) (hclx nd)
      · have hclsx : ClosedAt s x := by
          intro d hd
          apply hclx d
          apply mem_sinsert.mpr
          refine Or.inr ?_
          rw [hf1]
          split
          · exact (hs.hnd.mem_erase_iff).mpr ⟨fun he => hx (by injection he), hd⟩
          · exact hd
        rw [hgne x hx] at hxIM
        have hrel := hmid x hxL hxu hxIM hclsx
        intro p hp
        calc (s.dist.set v nd).getD p.1 0 ≤ s.dist.getD p.1 0 := hmono p.1
          _ ≤ s.dist.getD x 0 + p.2 := hrel p hp
          _ = (s.dist.set v nd).getD x 0 + p.2 := by rw [hgne x hx]
    · rw [hgv, hgne u (Ne.symm hvu)]
    · have hsum := sumD_set hvd nd
      rw [← hold] at hsum
      have hlen : (sinsert (nd, v) f1).length ≤ f1.length + 1 := sinsert_length_le
      omega

/-- Preservation of the non-negative-weight extras across the whole inner
neighbor loop of one iteration: after the loop the popped location `u` is
still frontier-free, kept its distance, has every processed edge relaxed,
and the termination measure has not increased. -/
theorem fold_extra {adj : Adj} {L src u : Nat} (hwf : WFAdj adj L) (hu : u < L)
    (hnw : NonnegW adj) :
    ∀ (rest : List (Nat × Int)) (s : DState), (∀ p ∈ rest, p ∈ adj.getD u []) →
    DInv adj L src s → s.dist.getD u 0 < INTMAX →
    DInvN src s → ClosedAt s u →
    (∀ x, x < L → x ≠ u → s.dist.getD x 0 < INTMAX → ClosedAt s x → Relaxed adj s x) →
    DInvN src (rest.foldl (relaxNbr u) s) ∧
    ClosedAt (rest.foldl (relaxNbr u) s) u ∧
    (rest.foldl (relaxNbr u) s).dist.getD u 0 = s.dist.getD u 0 ∧
    (∀ x, x < L → x ≠ u → (rest.foldl (relaxNbr u) s).dist.getD x 0 < INTMAX →
      ClosedAt (rest.foldl (relaxNbr u) s) x → Relaxed adj (rest.foldl (relaxNbr u) s) x) ∧
    (∀ p ∈ rest, (rest.foldl (relaxNbr u) s).dist.getD p.1 0 ≤
      (rest.foldl (relaxNbr u) s).dist.getD u 0 + p.2) ∧
    (2 * sumD (rest.foldl (relaxNbr u) s).dist + (rest.foldl (relaxNbr u) s).frontier.length ≤
      2 * sumD s.dist + s.frontier.length) := by
  intro rest
  induction rest with
  | nil =>
    intro s _ hs hfin hN hcu hmid
    exact ⟨hN, hcu, rfl, hmid, fun p hp => absurd hp (List.not_mem_nil p), le_refl _⟩
  | cons nbr rest ih =>
    intro s hsub hs hfin hN hcu hmid
    have hmem := hsub nbr (List.mem_cons_self ..)
    obtain ⟨c1, c2, c3, _, _⟩ := relax_core hwf hu hmem hs hfin
    obtain ⟨e1, e2, e3, e4, e5, e6⟩ := relax_extra hwf hu hnw hmem hs hfin hN hcu hmid
    obtain ⟨g1, g2, g3, g4, g5, g6⟩ :=
      ih (relaxNbr u s nbr) (fun p hp => hsub p (List.mem_cons_of_mem _ hp)) c1 c2 e1 e2 e4
    obtain ⟨_, _, m3, _, _⟩ :=
      fold_core hwf hu rest (relaxNbr u s nbr)
        (fun p hp => hsub p (List.mem_cons_of_mem _ hp)) c1 c2
    rw [List.foldl_cons]
    refine ⟨g1, g2, g3.trans e3, g4, ?_, g6.trans e6⟩
    intro p hp
    rcases List.mem_cons.mp hp with rfl | hp2
    · calc (rest.foldl (relaxNbr u) (relaxNbr u s p)).dist.getD p.1 0
          ≤ (relaxNbr u s p).dist.getD p.1 0 := m3 p.1
        _ ≤ (relaxNbr u s p).dist.getD u 0 + p.2 := e5
        _ = (rest.foldl (relaxNbr u) (relaxNbr u s p)).dist.getD u 0 + p.2 := by rw [g3]
    · exact g5 p hp2

/-! ### One loop iteration and the whole loop -/

theorem dstep_nil {adj : Adj} {s : DState} (h : s.frontier = []) :
    dstep adj s = s := by
  unfold dstep
  rw [h]

theorem dstep_cons {adj : Adj} {s : DState} {p : Int × Nat} {rest : List (Int × Nat)}
    (h : s.frontier = p :: rest) :
    dstep adj s =
      (adj.getD p.2 []).foldl (relaxNbr p.2) { s with frontier := rest } := by
  unfold dstep
  rw [h]
  show (adj.getD p.2 []).foldl (relaxNbr p.2) { s with frontier := (p :: rest).erase p } = _
  rw [List.erase_cons_head]

/-- One iteration preserves the core invariant. -/
theorem dstep_inv {adj : Adj} {L src : Nat} (hwf : WFAdj adj L) {s : DState}
    (hs : DInv adj L src s) : DInv adj L src (dstep adj s) := by
  rcases hfs : s.frontier with _ | ⟨p, rest⟩
  · rw [dstep_nil hfs]
    exact hs
  · rw [dstep_cons hfs]
    have hp := hs.hfr p (hfs ▸ List.mem_cons_self ..)
    have hfin : s.dist.getD p.2 0 < INTMAX := by
      rw [← hp.2.1]
      exact hp.2.2
    have hs1 : DInv adj L src { s with frontier := rest } := by
      refine ⟨hs.hdl, hs.hpl, ?_, ?_, hs.hub, hs.hsound, hs.hpinf⟩
      · intro q hq
        exact hs.hfr q (hfs ▸ List.mem_cons_of_mem _ hq)
      · have := hfs ▸ hs.hnd
        exact (List.nodup_cons.mp this).2
    exact (fold_core hwf hp.1 _ _ (fun q hq => hq) hs1 hfin).1

/-- One iteration preserves everything, and strictly decreases the
termination measure when the frontier is nonempty. -/
theorem dstep_all {adj : Adj} {L src : Nat} (hwf : WFAdj adj L) (hnw : NonnegW adj)
    {s : DState} (hs : DInv adj L src s) (hN : DInvN src s) (hC : DInvC adj L s) :
    DInv adj L src (dstep adj s) ∧ DInvN src (dstep adj s) ∧ DInvC adj L (dstep adj s) ∧
    (s.frontier ≠ [] →
      2 * sumD (dstep adj s).dist + (dstep adj s).frontier.length <
        2 * sumD s.dist + s.frontier.length) := by
  rcases hfs : s.frontier with _ | ⟨p, rest⟩
  · rw [dstep_nil hfs]
    exact ⟨hs, hN, hC, fun h => absurd rfl h⟩
  · rw [dstep_cons hfs]
    have hp := hs.hfr p (hfs ▸ List.mem_cons_self ..)
    have hfin : s.dist.getD p.2 0 < INTMAX := by
      rw [← hp.2.1]
      exact hp.2.2
    have hndc := hfs ▸ hs.hnd
    have hs1 : DInv adj L src { s with frontier := rest } := by
      refine ⟨hs.hdl, hs.hpl, ?_, ?_, hs.hub, hs.hsound, hs.hpinf⟩
      · intro q hq
        exact hs.hfr q (hfs ▸ List.mem_cons_of_mem _ hq)
      · exact (List.nodup_cons.mp hndc).2
    have hN1 : DInvN src { s with frontier := rest } := ⟨hN.hnn, hN.hsrc, hN.hpsrc⟩
    have hcu : ClosedAt { s with frontier := rest } p.2 := by
      intro d hd
      have hq := hs.hfr (d, p.2) (hfs ▸ List.mem_cons_of_mem _ hd)
      have : (d, p.2) = p := by
        have h1 : d = s.dist.getD p.2 0 := hq.2.1
        have h2 : p.1 = s.dist.getD p.2 0 := hp.2.1
        obtain ⟨p1, p2⟩ := p
        simp only at h1 h2 ⊢
        rw [h1, h2]
      exact (List.nodup_cons.mp hndc).1 (this ▸ hd)
    have hmid : ∀ x, x < L → x ≠ p.2 →
        ({ s with frontier := rest } : DState).dist.getD x 0 < INTMAX →
        ClosedAt { s with frontier := rest } x →
        Relaxed adj { s with frontier := rest } x := by
      intro x hxL hxu hxfin hclx
      have hclsx : ClosedAt s x := by
        intro d hd
        rw [hfs] at hd
        rcases List.mem_cons.mp hd with he | hd2
        · exact hxu (by rw [← he])
        · exact hclx d hd2
      exact hC x hxL hxfin hclsx
    obtain ⟨g1, g2, g3, g4, g5, g6⟩ :=
      fold_extra hwf hp.1 hnw _ { s with frontier := rest } (fun q hq => hq) hs1 hfin hN1 hcu hmid
    have hinv := (fold_core hwf hp.1 _ { s with frontier := rest } (fun q hq => hq) hs1 hfin).1
    refine ⟨hinv, g1, ?_, ?_⟩
    · intro x hxL hxfin hclx
      by_cases hx : x = p.2
      · subst hx
        intro q hq
        exact g5 q hq
      · exact g4 x hxL hx hxfin hclx
    · intro _
      have hlen : (p :: rest).length = rest.length + 1 := rfl
      have := g6
      simp only at this
      omega

/-- A completed run of the loop preserves the core invariant and ends with an
empty frontier. -/
theorem drun_inv {adj : Adj} {L src : Nat} (hwf : WFAdj adj L) :
    ∀ (n : Nat) {s t : DState}, DInv adj L src s →
    drun adj n s = some t → DInv adj L src t ∧ t.frontier = []
  | 0, s, t, _, h => by simp [drun] at h
  | n + 1, s, t, hs, h => by
    rw [drun] at h
    split at h
    · cases h
      exact ⟨hs, List.isEmpty_iff.mp ‹_›⟩
    · exact drun_inv hwf n (dstep_inv hwf hs) h

/-- A completed run of the loop preserves all invariants when weights are
non-negative. -/
theorem drun_all {adj : Adj} {L src : Nat} (hwf : WFAdj adj L) (hnw : NonnegW adj) :
    ∀ (n : Nat) {s t : DState}, DInv adj L src s → DInvN src s → DInvC adj L s →
    drun adj n s = some t →
    DInv adj L src t ∧ DInvN src t ∧ DInvC adj L t ∧ t.frontier = []
  | 0, s, t, _, _, _, h => by simp [drun] at h
  | n + 1, s, t, hs, hN, hC, h => by
    rw [drun] at h
    split at h
    · cases h
      exact ⟨hs, hN, hC, List.isEmpty_iff.mp ‹_›⟩
    · obtain ⟨g1, g2, g3, _⟩ := dstep_all hwf hnw hs hN hC
      exact drun_all hwf hnw n g1 g2 g3 h

/-- With non-negative weights the loop finishes once the fuel exceeds the
termination measure `2 * sumD dist + |frontier|`. -/
theorem drun_terminates {adj : Adj} {L src : Nat} (hwf : WFAdj adj L) (hnw : NonnegW adj) :
    ∀ (n : Nat) {s : DState}, DInv adj L src s → DInvN src s → DInvC adj L s →
    2 * sumD s.dist + s.frontier.length < n → ∃ t, drun adj n s = some t
  | 0, _, _, _, _, h => absurd h (by omega)
  | n + 1, s, hs, hN, hC, h => by
    rw [drun]
    split
    · exact ⟨s, rfl⟩
    · next hne =>
      have hne2 : s.frontier ≠ [] := by
        intro he
        rw [List.isEmpty_iff] at hne
        exact hne he
      obtain ⟨g1, g2, g3, g4⟩ := dstep_all hwf hnw hs hN hC
      exact drun_terminates hwf hnw n g1 g2 g3 (by have := g4 hne2; omega)

/-! ### The initial state -/

theorem initState_frontier (L src : Nat) : (initState L src).frontier = [(0, src)] := by
  simp [initState, sinsert, List.orderedInsert]

theorem initState_dist_src {L src : Nat} (h : src < L) :
    (initState L src).dist.getD src 0 = 0 :=
  getD_set_self (by simpa using h) ..

theorem initState_dist_ne {L src v : Nat} (hv : v ≠ src) (hL : v < L) :
    (initState L src).dist.getD v 0 = INTMAX := by
  show ((List.replicate L INTMAX).set src 0).getD v 0 = INTMAX
  rw [getD_set_ne (fun h => hv h.symm), getD_replicate hL]

theorem initState_dist_out {L src v : Nat} (hL : L ≤ v) :
    (initState L src).dist.getD v 0 = 0 := by
  show ((List.replicate L INTMAX).set src 0).getD v 0 = 0
  exact List.getD_eq_default _ _ (by simpa using hL)

theorem initState_parent (L src : Nat) (v : Nat) :
    (initState L src).parent.getD v (-1) = -1 := by
  show (List.replicate L (-1 : Int)).getD v (-1) = -1
  rcases Nat.lt_or_ge v L with h | h
  · exact getD_replicate h ..
  · exact List.getD_eq_default _ _ (by simpa using h)

theorem init_inv (adj : Adj) {L src : Nat} (h : src < L) :
    DInv adj L src (initState L src) ∧ DInvN src (initState L src) ∧
      DInvC adj L (initState L src) := by
  have hIM : (0 : Int) < INTMAX := by decide
  have hdist : ∀ v, (initState L src).dist.getD v 0 = 0 ∨
      ((initState L src).dist.getD v 0 = INTMAX ∧ v ≠ src) := by
    intro v
    by_cases hv : v = src
    · subst hv
      exact Or.inl (initState_dist_src h)
    · rcases Nat.lt_or_ge v L with hL | hL
      · exact Or.inr ⟨initState_dist_ne hv hL, hv⟩
      · exact Or.inl (initState_dist_out hL)
  refine ⟨⟨?_, ?_, ?_, ?_, ?_, ?_, ?_⟩, ⟨?_, ?_, ?_⟩, ?_⟩
  · simp [initState]
  · simp [initState]
  · intro p hp
    rw [initState_frontier] at hp
    rcases List.mem_singleton.mp hp with rfl
    exact ⟨h, (initState_dist_src h).symm, hIM⟩
  · rw [initState_frontier]
    simp
  · intro v
    rcases hdist v with hv | ⟨hv, _⟩ <;> rw [hv] <;> omega
  · intro v hvL hvlt
    rcases hdist v with hv | ⟨hv, _⟩
    · by_cases hvs : v = src
      · subst hvs
        rw [hv]
        exact Walk.nil v
      · rcases Nat.lt_or_ge v L with hL | hL
        · rw [initState_dist_ne hvs hL] at hv
          exact absurd hv (by decide)
        · omega
    · rw [hv] at hvlt
      omega
  · intro v _
    exact initState_parent ..
  · intro v
    rcases hdist v with hv | ⟨hv, _⟩ <;> rw [hv] <;> omega
  · rw [initState_dist_src h]
  · exact initState_parent ..
  · intro x hxL hxfin hcl
    by_cases hxs : x = src
    · subst hxs
      have : (0, x) ∈ (initState L x).frontier := by
        rw [initState_frontier]
        exact List.mem_singleton.mpr rfl
      exact absurd this (hcl 0)
    · rw [initState_dist_ne hxs hxL] at hxfin
      omega

/-! ### Conclusions at the final state -/

/-- At a final state (empty frontier), walking from a location whose
tentative distance is at most `b` bounds the tentative distance of every
location along the walk, as long as the sentinel is never reached. -/
theorem final_upper {adj : Adj} {L : Nat} (hwf : WFAdj adj L) (hnw : NonnegW adj)
    {s : DState} (hC : DInvC adj L s) (hemp : s.frontier = []) :
    ∀ {u t : Nat} {c : Int}, Walk adj u t c → u < L →
    ∀ b : Int, s.dist.getD u 0 ≤ b → 0 ≤ b → b + c < INTMAX →
    s.dist.getD t 0 ≤ b + c := by
  intro u t c hwalk
  induction hwalk with
  | nil u =>
    intro _ b h1 _ _
    simpa using h1
  | @cons u' t' c' v w hmem hwk ih =>
    intro huL b h1 h2 h3
    have hw0 : 0 ≤ (v, w).2 := hnw _ (getD_pos_mem (hwf.1 ▸ huL) []) (v, w) hmem
    simp only at hw0
    have hc'0 : 0 ≤ c' := hwk.nonneg hnw
    have hvL : v < L := hwf.2 _ (getD_pos_mem (hwf.1 ▸ huL) []) _ hmem
    have hfin : s.dist.getD u' 0 < INTMAX := by omega
    have hclosed : ClosedAt s u' := by
      intro d hd
      rw [hemp] at hd
      exact List.not_mem_nil _ hd
    have hrel := hC u' huL hfin hclosed (v, w) hmem
    simp only at hrel
    have hres := ih hvL (b + w) (by omega) (by omega) (by omega)
    omega

/-- Unfolds a successful `Map::dijkstra` run into its final loop state. -/
theorem dijkstra_run {m : Map} {src dest fuel : Nat} {out : Int × List Nat}
    (h : m.dijkstra src dest fuel = some out) :
    ∃ t, drun m.adj fuel (initState m.L src) = some t ∧
      out = (t.dist.getD dest 0, src :: displayPath t.parent m.L dest) := by
  unfold Map.dijkstra at h
  rcases hr : drun m.adj fuel (initState m.L src) with _ | t
  · rw [hr] at h
    simp at h
  · rw [hr] at h
    simp only [Option.map_some'] at h
    exact ⟨t, rfl, (Option.some_inj.mp h).symm⟩

/-- Main correctness helper: with well-formed adjacency, non-negative
weights, in-range endpoints, and the destination reachable by a walk whose
weight is below the `INT_MAX` sentinel, a completed query reports exactly
the minimum walk weight as the distance. -/
theorem dijkstra_minimal {m : Map} {src dest fuel : Nat} {out : Int × List Nat}
    (hwf : WFAdj m.adj m.L) (hnw : NonnegW m.adj) (hsrc : src < m.L) (hdest : dest < m.L)
    (hreach : ∃ c, Walk m.adj src dest c ∧ c < INTMAX)
    (hrun : m.dijkstra src dest fuel = some out) :
    IsMinWalk m.adj src dest out.1 := by
  obtain ⟨t, hr, hout⟩ := dijkstra_run hrun
  obtain ⟨hi1, hi2, hi3⟩ := init_inv m.adj hsrc
  obtain ⟨hf1, hf2, hf3, hf4⟩ := drun_all hwf hnw fuel hi1 hi2 hi3 hr
  obtain ⟨c0, hw0, hc0⟩ := hreach
  have hc00 : 0 ≤ c0 := hw0.nonneg hnw
  have hub := final_upper hwf hnw hf3 hf4 hw0 hsrc 0 hf2.hsrc (le_refl 0) (by omega)
  have hdfin : t.dist.getD dest 0 < INTMAX := by omega
  have hsound := hf1.hsound dest hdest hdfin
  have hout1 : out.1 = t.dist.getD dest 0 := by rw [hout]
  rw [hout1]
  refine ⟨hsound, ?_⟩
  intro c hc
  rcases Int.lt_or_le c INTMAX with hcIM | hcIM
  · have := final_upper hwf hnw hf3 hf4 hc hsrc 0 hf2.hsrc (le_refl 0) (by omega)
    omega
  · omega

/-- Unreachability helper: with well-formed adjacency and in-range
endpoints, if no walk reaches the destination then a completed query
reports the `INT_MAX` sentinel and the one-location path `[src]`. -/
theorem dijkstra_unreachable {m : Map} {src dest fuel : Nat} {out : Int × List Nat}
    (hwf : WFAdj m.adj m.L) (hsrc : src < m.L) (hdest : dest < m.L)
    (hnr : ∀ c, ¬ Walk m.adj src dest c)
    (hrun : m.dijkstra src dest fuel = some out) :
    out = (INTMAX, [src]) := by
  obtain ⟨t, hr, hout⟩ := dijkstra_run hrun
  obtain ⟨hi1, _, _⟩ := init_inv m.adj hsrc
  obtain ⟨hf1, _⟩ := drun_inv hwf fuel hi1 hr
  have hdIM : t.dist.getD dest 0 = INTMAX := by
    rcases Int.lt_or_le (t.dist.getD dest 0) INTMAX with hlt | hge
    · exact absurd (hf1.hsound dest hdest hlt) (hnr _)
    · have := hf1.hub dest
      omega
  have hpar := hf1.hpinf dest hdIM
  obtain ⟨k, hk⟩ : ∃ k, m.L = k + 1 := ⟨m.L - 1, by omega⟩
  rw [hout, hdIM, hk]
  have hdp : displayPath t.parent (k + 1) dest = [] := by
    rw [displayPath, hpar]
    simp
  rw [hdp]

/-- Degenerate-query helper: with non-negative weights and an in-range
location `x`, a completed query from `x` to itself reports distance `0`
and the one-location path `[x]`. -/
theorem dijkstra_self {m : Map} {x fuel : Nat} {out : Int × List Nat}
    (hwf : WFAdj m.adj m.L) (hnw : NonnegW m.adj) (hx : x < m.L)
    (hrun : m.dijkstra x x fuel = some out) :
    out = (0, [x]) := by
  obtain ⟨t, hr, hout⟩ := dijkstra_run hrun
  obtain ⟨hi1, hi2, hi3⟩ := init_inv m.adj hx
  obtain ⟨hf1, hf2, _, _⟩ := drun_all hwf hnw fuel hi1 hi2 hi3 hr
  have hd0 : t.dist.getD x 0 = 0 := le_antisymm hf2.hsrc (hf2.hnn x)
  obtain ⟨k, hk⟩ : ∃ k, m.L = k + 1 := ⟨m.L - 1, by omega⟩
  rw [hout, hd0, hk]
  have hdp : displayPath t.parent (k + 1) x = [] := by
    rw [displayPath, hf2.hpsrc]
    simp
  rw [hdp]

/-- Termination helper: with well-formed adjacency, non-negative weights
and an in-range source, some fuel completes the query. -/
theorem dijkstra_terminates (m : Map) (src dest : Nat)
    (hwf : WFAdj m.adj m.L) (hnw : NonnegW m.adj) (hsrc : src < m.L) :
    ∃ fuel out, m.dijkstra src dest fuel = some out := by
  obtain ⟨hi1, hi2, hi3⟩ := init_inv m.adj hsrc
  obtain ⟨t, ht⟩ := drun_terminates hwf hnw
    (2 * sumD (initState m.L src).dist + (initState m.L src).frontier.length + 1)
    hi1 hi2 hi3 (by omega)
  refine ⟨2 * sumD (initState m.L src).dist + (initState m.L src).frontier.length + 1,
    (t.dist.getD dest 0, src :: displayPath t.parent m.L dest), ?_⟩
  unfold Map.dijkstra
  rw [ht]
  rfl

/-! ### Iterated loop states (for the per-iteration invariant claims) -/

/-- The loop state at the start of the `n`-th iteration of the `while` loop. -/
def stepN (adj : Adj) (s : DState) : Nat → DState
  | 0 => s
  | n + 1 => dstep adj (stepN adj s n)

theorem stepN_inv {adj : Adj} {L src : Nat} (hwf : WFAdj adj L) (hsrc : src < L) :
    ∀ n, DInv adj L src (stepN adj (initState L src) n)
  | 0 => (init_inv adj hsrc).1
  | n + 1 => dstep_inv hwf (stepN_inv hwf hsrc n)

/-- Popping the minimum entry preserves the core invariant, and the popped
location is in range with a finite distance. -/
theorem pop_inv {adj : Adj} {L src : Nat} {s : DState} {p : Int × Nat}
    {rest : List (Int × Nat)} (hs : DInv adj L src s) (hfs : s.frontier = p :: rest) :
    DInv adj L src { s with frontier := rest } ∧ p.2 < L ∧
      s.dist.getD p.2 0 < INTMAX := by
  have hp := hs.hfr p (hfs ▸ List.mem_cons_self ..)
  refine ⟨⟨hs.hdl, hs.hpl, ?_, ?_, hs.hub, hs.hsound, hs.hpinf⟩, hp.1, ?_⟩
  · intro q hq
    exact hs.hfr q (hfs ▸ List.mem_cons_of_mem _ hq)
  · exact (List.nodup_cons.mp (hfs ▸ hs.hnd)).2
  · rw [← hp.2.1]
    exact hp.2.2

/-- A duplicate-free list whose entries are determined by their second
component has at most one entry per second component. -/
theorem filter_snd_len_le_one {l : List (Int × Nat)} (hnd : l.Nodup)
    (hkey : ∀ p ∈ l, ∀ q ∈ l, p.2 = q.2 → p = q) (v : Nat) :
    (l.filter (fun q => q.2 == v)).length ≤ 1 := by
  rcases hf : l.filter (fun q => q.2 == v) with _ | ⟨a, tail⟩
  · rw [hf]
    simp
  rcases tail with _ | ⟨b, tail2⟩
  · rw [hf]
    simp
  exfalso
  have hnf : (a :: b :: tail2).Nodup := hf ▸ hnd.filter _
  have hab : a ≠ b := by
    intro he
    exact (List.nodup_cons.mp hnf).1 (he ▸ List.mem_cons_self ..)
  have ha : a ∈ l.filter (fun q => q.2 == v) := by
    rw [hf]
    exact List.mem_cons_self ..
  have hb : b ∈ l.filter (fun q => q.2 == v) := by
    rw [hf]
    exact List.mem_cons_of_mem _ (List.mem_cons_self ..)
  obtain ⟨hal, hav⟩ := List.mem_filter.mp ha
  obtain ⟨hbl, hbv⟩ := List.mem_filter.mp hb
  apply hab
  apply hkey a hal b hbl
  simp only [beq_iff_eq] at hav hbv
  rw [hav, hbv]

/-- When a relaxation improves the distance of a location `v` whose previous
distance is finite, the stale frontier entry keyed by the previous distance
is gone from the resulting frontier and the updated entry is present. -/
theorem relax_stale {adj : Adj} {L src u v : Nat} {w : Int} {s : DState}
    (hs : DInv adj L src s)
    (hc : s.dist.getD u 0 + w < s.dist.getD v 0) (hIM : s.dist.getD v 0 ≠ INTMAX) :
    (s.dist.getD v 0, v) ∉ (relaxNbr u s (v, w)).frontier ∧
    (s.dist.getD u 0 + w, v) ∈ (relaxNbr u s (v, w)).frontier := by
  have hfr : (relaxNbr u s (v, w)).frontier =
      sinsert (s.dist.getD u 0 + w, v) (s.frontier.erase (s.dist.getD v 0, v)) := by
    simp only [relaxNbr, if_pos hc]
    rw [if_pos hIM]
  rw [hfr]
  constructor
  · intro hmem
    rcases mem_sinsert.mp hmem with he | hm
    · have : s.dist.getD v 0 = s.dist.getD u 0 + w := by
        injection he with h1 _
      omega
    · exact (hs.hnd.mem_erase_iff.mp hm).1 rfl
  · exact mem_sinsert.mpr (Or.inl rfl)

/-- One iteration never increases any tentative distance, and whenever it
changes one, the change is a strict decrease to a finite value and the
parent entry is set in the same iteration to the popped location. -/
theorem dstep_mono {adj : Adj} {L src : Nat} (hwf : WFAdj adj L) {s : DState}
    (hs : DInv adj L src s) :
    ∀ v, (dstep adj s).dist.getD v 0 ≤ s.dist.getD v 0 ∧
      ((dstep adj s).dist.getD v 0 ≠ s.dist.getD v 0 →
        (dstep adj s).dist.getD v 0 < s.dist.getD v 0 ∧
        (dstep adj s).dist.getD v 0 < INTMAX ∧
        ∃ p rest, s.frontier = p :: rest ∧
          (dstep adj s).parent.getD v (-1) = (p.2 : Int)) := by
  intro v
  rcases hfs : s.frontier with _ | ⟨p, rest⟩
  · rw [dstep_nil hfs]
    exact ⟨le_refl _, fun h => absurd rfl h⟩
  · obtain ⟨hs1, hpL, hfin⟩ := pop_inv hs hfs
    obtain ⟨_, _, m3, m4, _⟩ :=
      fold_core hwf hpL _ { s with frontier := rest } (fun q hq => hq) hs1 hfin
    rw [dstep_cons hfs]
    refine ⟨m3 v, fun hne => ?_⟩
    obtain ⟨c1, c2, c3⟩ := m4 v hne
    exact ⟨c1, c2, p, rest, rfl, c3⟩

/-! ### `Map::addDist` lemmas -/

theorem addDist_adj_length (m : Map) (u v : Nat) (d : Int) :
    (m.addDist u v d).adj.length = m.adj.length := by
  simp [Map.addDist]

theorem addDist_L (m : Map) (u v : Nat) (d : Int) : (m.addDist u v d).L = m.L :=
  rfl

/-- Appending to one adjacency list never loses an existing entry of any
adjacency list. -/
theorem set_append_mem_mono {l : Adj} {i j : Nat} {x : List (Nat × Int)}
    {q : Nat × Int} (hq : q ∈ l.getD i []) :
    q ∈ (l.set j (l.getD j [] ++ x)).getD i [] := by
  rcases Nat.lt_or_ge j l.length with hj | hj
  · by_cases hij : i = j
    · subst hij
      rw [getD_set_self (by omega) ..]
      exact List.mem_append_left _ hq
    · rw [getD_set_ne (fun h => hij h.symm) ..]
      exact hq
  · rw [List.set_eq_of_length_le hj]
    exact hq

/-- `Map::addDist` never removes an existing adjacency entry. -/
theorem addDist_mem_mono {m : Map} {u v i : Nat} {d : Int} {q : Nat × Int}
    (hq : q ∈ m.adj.getD i []) : q ∈ (m.addDist u v d).adj.getD i [] :=
  set_append_mem_mono (set_append_mem_mono hq)

/-- After `addDist u v d` with `u` in range, `adj[u]` contains `(v, d)`. -/
theorem addDist_mem_fst {m : Map} {u v : Nat} {d : Int} (hu : u < m.adj.length) :
    (v, d) ∈ (m.addDist u v d).adj.getD u [] := by
  show (v, d) ∈ ((m.adj.set u (m.adj.getD u [] ++ [(v, d)])).set v
    ((m.adj.set u (m.adj.getD u [] ++ [(v, d)])).getD v [] ++ [(u, d)])).getD u []
  have h1 : (v, d) ∈ (m.adj.set u (m.adj.getD u [] ++ [(v, d)])).getD u [] := by
    rw [getD_set_self hu ..]
    exact List.mem_append_right _ (List.mem_singleton.mpr rfl)
  exact set_append_mem_mono h1

/-- After `addDist u v d` with `v` in range, `adj[v]` contains `(u, d)`. -/
theorem addDist_mem_snd {m : Map} {u v : Nat} {d : Int} (hv : v < m.adj.length) :
    (u, d) ∈ (m.addDist u v d).adj.getD v [] := by
  show (u, d) ∈ ((m.adj.set u (m.adj.getD u [] ++ [(v, d)])).set v
    ((m.adj.set u (m.adj.getD u [] ++ [(v, d)])).getD v [] ++ [(u, d)])).getD v []
  rw [getD_set_self (by simpa using hv) ..]
  exact List.mem_append_right _ (List.mem_singleton.mpr rfl)

/-- Builds a `Map` by a sequence of `addDist` calls, as `main` does. -/
def buildMap (L : Nat) (edges : List (Nat × Nat × Int)) : Map :=
  edges.foldl (fun m e => m.addDist e.1 e.2.1 e.2.2) (mkMap L)

theorem buildFold_length (edges : List (Nat × Nat × Int)) :
    ∀ m : Map, (edges.foldl (fun m e => m.addDist e.1 e.2.1 e.2.2) m).adj.length =
      m.adj.length := by
  induction edges with
  | nil => intro m; rfl
  | cons e edges ih =>
    intro m
    rw [List.foldl_cons, ih]
    exact addDist_adj_length ..

theorem buildFold_mem_mono (edges : List (Nat × Nat × Int)) :
    ∀ (m : Map) (i : Nat) (q : Nat × Int), q ∈ m.adj.getD i [] →
      q ∈ ((edges.foldl (fun m e => m.addDist e.1 e.2.1 e.2.2) m)).adj.getD i [] := by
  induction edges with
  | nil => intro m i q hq; exact hq
  | cons e edges ih =>
    intro m i q hq
    rw [List.foldl_cons]
    exact ih _ i q (addDist_mem_mono hq)

/-- Symmetry of the adjacency structure built by a sequence of in-range
`addDist` calls: every added connection appears in both endpoint lists. -/
theorem buildFold_symm (edges : List (Nat × Nat × Int)) :
    ∀ m : Map, (∀ e ∈ edges, e.1 < m.adj.length ∧ e.2.1 < m.adj.length) →
      ∀ e ∈ edges,
        (e.2.1, e.2.2) ∈
          ((edges.foldl (fun m e => m.addDist e.1 e.2.1 e.2.2) m)).adj.getD e.1 [] ∧
        (e.1, e.2.2) ∈
          ((edges.foldl (fun m e => m.addDist e.1 e.2.1 e.2.2) m)).adj.getD e.2.1 [] := by
  induction edges with
  | nil => intro m _ e he; exact absurd he (List.not_mem_nil e)
  | cons e0 edges ih =>
    intro m hE e he
    rw [List.foldl_cons]
    rcases List.mem_cons.mp he with rfl | he2
    · have h0 := hE e (List.mem_cons_self ..)
      constructor
      · exact buildFold_mem_mono edges _ _ _ (addDist_mem_fst h0.1)
      · exact buildFold_mem_mono edges _ _ _ (addDist_mem_snd h0.2)
    · apply ih (m.addDist e0.1 e0.2.1 e0.2.2)
      · intro e' he'
        have := hE e' (List.mem_cons_of_mem _ he')
        rw [addDist_adj_length]
        exact this
      · exact he2

/-! ### Concrete graphs used in counterexamples and witnesses -/

/-- In a `Map` with two locations and no connections, no walk links 0 to 1. -/
theorem mkMap2_no_walk : ∀ c, ¬ Walk (mkMap 2).adj 0 1 c := by
  have hstep : ∀ u t c, Walk (mkMap 2).adj u t c → u = t := by
    intro u t c h
    induction h with
    | nil u => rfl
    | @cons u' t' c' v w hmem hwk ih =>
      exfalso
      have hempty : (mkMap 2).adj.getD u' [] = [] := by
        match u' with
        | 0 => rfl
        | 1 => rfl
        | n + 2 => rfl
      rw [hempty] at hmem
      exact List.not_mem_nil _ hmem
  intro c h
  exact absurd (hstep 0 1 c h) (by decide)

/-- A 3-location line graph whose two connection weights are `INT_MAX`. -/
def bigMap : Map := ((mkMap 3).addDist 0 1 INTMAX).addDist 1 2 INTMAX

/-- Every walk from 0 to 2 in `bigMap` weighs at least `2 * INT_MAX`. -/
theorem bigMap_walk_lb : ∀ u t c, Walk bigMap.adj u t c → t = 2 →
    (u = 0 → 2 * INTMAX ≤ c) ∧ (u = 1 → INTMAX ≤ c) ∧ (u = 2 → 0 ≤ c) := by
  have hIM : INTMAX = 2147483647 := rfl
  intro u t c h
  induction h with
  | nil u =>
    intro ht
    subst ht
    exact ⟨by omega, by omega, fun _ => le_refl 0⟩
  | @cons u' t' c' v w hmem hwk ih =>
    intro ht
    have hih := ih ht
    match u' with
    | 0 =>
      have he : bigMap.adj.getD 0 [] = [(1, INTMAX)] := rfl
      rw [he] at hmem
      simp only [List.mem_singleton, Prod.mk.injEq] at hmem
      obtain ⟨rfl, rfl⟩ := hmem
      have := hih.2.1 rfl
      exact ⟨fun _ => by omega, by omega, by omega⟩
    | 1 =>
      have he : bigMap.adj.getD 1 [] = [(0, INTMAX), (2, INTMAX)] := rfl
      rw [he] at hmem
      simp only [List.mem_cons, List.mem_singleton, Prod.mk.injEq,
        List.not_mem_nil, or_false] at hmem
      rcases hmem with ⟨rfl, rfl⟩ | ⟨rfl, rfl⟩
      · have := hih.1 rfl
        exact ⟨by omega, fun _ => by omega, by omega⟩
      · have := hih.2.2 rfl
        exact ⟨by omega, fun _ => by omega, by omega⟩
    | 2 =>
      have he : bigMap.adj.getD 2 [] = [(1, INTMAX)] := rfl
      rw [he] at hmem
      simp only [List.mem_singleton, Prod.mk.injEq] at hmem
      obtain ⟨rfl, rfl⟩ := hmem
      have := hih.2.1 rfl
      exact ⟨by omega, by omega, fun _ => by omega⟩
    | n + 3 =>
      have he : bigMap.adj.getD (n + 3) [] = [] := rfl
      rw [he] at hmem
      exact absurd hmem (List.not_mem_nil _)

/-- The walk `0 → 1 → 2` in `bigMap`, of weight `2 * INT_MAX`. -/
theorem bigMap_walk_ex : Walk bigMap.adj 0 2 (INTMAX + (INTMAX + 0)) :=
  Walk.cons 1 INTMAX (by decide) (Walk.cons 2 INTMAX (by decide) (Walk.nil 2))

/-- The walk `0 → 1 → 2 → 8` of weight 14 in the reference graph. -/
theorem refWalk14 : Walk refMap.adj 0 8 14 := by
  have h : (14 : Int) = 4 + (8 + (2 + 0)) := by decide
  rw [h]
  exact Walk.cons 1 4 (by decide)
    (Walk.cons 2 8 (by decide) (Walk.cons 8 2 (by decide) (Walk.nil 8)))

/-! ### Claims -/

/-- C1 (counterexample): on the 3-location line graph `bigMap` with the two
connection weights equal to `INT_MAX`, all weights are non-negative,
endpoints are in range, and location 2 is reachable from location 0, yet the
query reports distance `2147483647` (`INT_MAX`), which is not the minimum
walk weight: every walk from 0 to 2 weighs at least `4294967294`, so the
reported distance is not the weight of any walk.  The comparison
`dist[v] > dist[u] + Distance` against the `INT_MAX` sentinel suppresses
the relaxation (no signed overflow occurs on this input in C++). -/
theorem claim_C1_cex :
    WFAdj bigMap.adj bigMap.L ∧ NonnegW bigMap.adj ∧
    0 < bigMap.L ∧ 2 < bigMap.L ∧ (∃ c, Walk bigMap.adj 0 2 c) ∧
    bigMap.dijkstra 0 2 10 = some (2147483647, [0]) ∧
    ¬ IsMinWalk bigMap.adj 0 2 2147483647 := by
  refine ⟨by decide, by decide, by decide, by decide, ⟨_, bigMap_walk_ex⟩,
    by decide, ?_⟩
  rintro ⟨hw, -⟩
  have hlb := (bigMap_walk_lb 0 2 _ hw rfl).1 rfl
  have hIM : INTMAX = 2147483647 := rfl
  omega

/-- C1 (amended): for every graph with well-formed adjacency and
non-negative connection weights, and every in-range source and destination
such that the destination is reachable from the source by some walk of
total weight below `INT_MAX`, the distance reported by a completed
shortest-path query equals the minimum sum of connection weights over any
walk from source to destination. -/
theorem claim_C1 {m : Map} {src dest fuel : Nat} {out : Int × List Nat}
    (hwf : WFAdj m.adj m.L) (hnw : NonnegW m.adj) (hsrc : src < m.L)
    (hdest : dest < m.L) (hreach : ∃ c, Walk m.adj src dest c ∧ c < INTMAX)
    (hrun : m.dijkstra src dest fuel = some out) :
    IsMinWalk m.adj src dest out.1 :=
  dijkstra_minimal hwf hnw hsrc hdest hreach hrun

/-- C1 (witness): the amended claim instantiated on the 9-location
reference graph with source 0 and destination 8. -/
theorem claim_C1_witness :
    WFAdj refMap.adj refMap.L ∧ NonnegW refMap.adj ∧ 0 < refMap.L ∧ 8 < refMap.L ∧
    (∃ c, Walk refMap.adj 0 8 c ∧ c < INTMAX) ∧
    refMap.dijkstra 0 8 100 = some (14, [0, 1, 2, 8]) ∧
    IsMinWalk refMap.adj 0 8 14 :=
  ⟨by decide, by decide, by decide, by decide, ⟨14, refWalk14, by decide⟩, by decide,
    @claim_C1 refMap 0 8 100 (14, [0, 1, 2, 8]) (by decide) (by decide) (by decide)
      (by decide) ⟨14, refWalk14, by decide⟩ (by decide)⟩

/-- C2 (counterexample): on a 2-location graph with no connections,
location 1 is unreachable from location 0, yet the query reports the raw
sentinel integer `2147483647` (`INT_MAX`) as the distance — not a
distinguishable "unreachable" value — and the printed path is `[0]`, not
empty (`printShortestPath` always prints `src` first). -/
theorem claim_C2_cex :
    (∀ c, ¬ Walk (mkMap 2).adj 0 1 c) ∧ 0 < (mkMap 2).L ∧ 1 < (mkMap 2).L ∧
    (mkMap 2).dijkstra 0 1 2 = some (2147483647, [0]) :=
  ⟨mkMap2_no_walk, by decide, by decide, by decide⟩

/-- C2 (amended): for every graph with well-formed adjacency and every
in-range source and destination such that the destination is not reachable
from the source, a completed shortest-path query reports the distance as
the sentinel integer `INT_MAX = 2147483647` and the path `[source]`
(the source followed by an empty `displayPath` output). -/
theorem claim_C2 {m : Map} {src dest fuel : Nat} {out : Int × List Nat}
    (hwf : WFAdj m.adj m.L) (hsrc : src < m.L) (hdest : dest < m.L)
    (hnr : ∀ c, ¬ Walk m.adj src dest c)
    (hrun : m.dijkstra src dest fuel = some out) :
    out = (INTMAX, [src]) :=
  dijkstra_unreachable hwf hsrc hdest hnr hrun

/-- C2 (witness): the amended claim instantiated on the edgeless
2-location graph with source 0 and destination 1. -/
theorem claim_C2_witness :
    WFAdj (mkMap 2).adj (mkMap 2).L ∧ 0 < (mkMap 2).L ∧ 1 < (mkMap 2).L ∧
    (∀ c, ¬ Walk (mkMap 2).adj 0 1 c) ∧
    (mkMap 2).dijkstra 0 1 2 = some (2147483647, [0]) ∧
    ((2147483647 : Int), ([0] : List Nat)) = (INTMAX, [0]) :=
  ⟨by decide, by decide, by decide, mkMap2_no_walk, by decide,
    @claim_C2 (mkMap 2) 0 1 2 (2147483647, [0]) (by decide) (by decide) (by decide)
      mkMap2_no_walk (by decide)⟩

/-- C3 (counterexample): `Map::addDist` performs no weight validation:
adding the connection `(0, 1, -5)` to a fresh 2-location map does not fail
and does add the connection to both adjacency lists — the negative weight
is silently accepted, not rejected. -/
theorem claim_C3_cex :
    (1, -5) ∈ ((mkMap 2).addDist 0 1 (-5)).adj.getD 0 [] ∧
    (0, -5) ∈ ((mkMap 2).addDist 0 1 (-5)).adj.getD 1 [] := by
  decide

/-- C3 (amended): `Map::addDist` does not validate the weight: for every
map and in-range endpoints, a call with a negative weight is silently
accepted and appends the connection to both adjacency lists, exactly as a
non-negative weight would be; no error of any kind is produced (the
function is total and has no failure channel). -/
theorem claim_C3 {m : Map} {u v : Nat} {w : Int}
    (hu : u < m.adj.length) (hv : v < m.adj.length) (hw : w < 0) :
    (v, w) ∈ (m.addDist u v w).adj.getD u [] ∧
    (u, w) ∈ (m.addDist u v w).adj.getD v [] :=
  ⟨addDist_mem_fst hu, addDist_mem_snd hv⟩

/-- C3 (witness): the amended claim instantiated on a fresh 2-location map
with the negative-weight call `addDist(0, 1, -5)`. -/
theorem claim_C3_witness :
    0 < (mkMap 2).adj.length ∧ 1 < (mkMap 2).adj.length ∧ (-5 : Int) < 0 ∧
    ((1, -5) ∈ ((mkMap 2).addDist 0 1 (-5)).adj.getD 0 [] ∧
     (0, -5) ∈ ((mkMap 2).addDist 0 1 (-5)).adj.getD 1 []) :=
  ⟨by decide, by decide, by decide, claim_C3 (by decide) (by decide) (by decide)⟩

/-- C4 (counterexample): `Map::addDist` performs no range validation: the
call `addDist(5, 0, 7)` on a 2-location map does not fail with any error,
and it does not leave the adjacency structure unchanged — the in-range
endpoint's list still receives the entry `(5, 7)` (in the C++ source the
access `adj[5]` itself is an out-of-bounds write, i.e. undefined
behavior). -/
theorem claim_C4_cex :
    ((mkMap 2).addDist 5 0 7).adj ≠ (mkMap 2).adj ∧
    (5, 7) ∈ ((mkMap 2).addDist 5 0 7).adj.getD 0 [] := by
  decide

/-- C4 (amended): `Map::addDist` does not validate its indices: a call
whose first endpoint is out of range is not rejected and still appends the
pair to the in-range endpoint's adjacency list (the out-of-range access
itself is undefined behavior in C++; in this model the out-of-range
`List.set` is a no-op). -/
theorem claim_C4 {m : Map} {u v : Nat} {w : Int}
    (hu : m.adj.length ≤ u) (hv : v < m.adj.length) :
    (u, w) ∈ (m.addDist u v w).adj.getD v [] := by
  show (u, w) ∈ ((m.adj.set u (m.adj.getD u [] ++ [(v, w)])).set v
    ((m.adj.set u (m.adj.getD u [] ++ [(v, w)])).getD v [] ++ [(u, w)])).getD v []
  rw [List.set_eq_of_length_le hu]
  rw [getD_set_self hv ..]
  exact List.mem_append_right _ (List.mem_singleton.mpr rfl)

/-- C4 (witness): the amended claim instantiated with the out-of-range
call `addDist(5, 0, 7)` on a 2-location map. -/
theorem claim_C4_witness :
    (mkMap 2).adj.length ≤ 5 ∧ 0 < (mkMap 2).adj.length ∧
    (5, 7) ∈ ((mkMap 2).addDist 5 0 7).adj.getD 0 [] :=
  ⟨by decide, by decide, claim_C4 (by decide) (by decide)⟩

/-- C5 (confirmed): during every execution of the relaxation loop (modelled
as the iterated loop body from the initial state), at the start of each
iteration the frontier holds at most one entry per location; moreover, in
any state satisfying the loop invariant, a relaxation that improves
`dist[v]` while the previous `dist[v]` is finite removes the stale entry
`{dist[v], v}` — absent from the resulting frontier — and inserts the
updated entry `{dist[u] + w, v}`. -/
theorem claim_C5 {m : Map} {src : Nat} (hwf : WFAdj m.adj m.L) (hsrc : src < m.L) :
    (∀ n v, ((stepN m.adj (initState m.L src) n).frontier.filter
        (fun q => q.2 == v)).length ≤ 1) ∧
    (∀ (s : DState) (u v : Nat) (w : Int), DInv m.adj m.L src s →
      s.dist.getD u 0 + w < s.dist.getD v 0 → s.dist.getD v 0 ≠ INTMAX →
      (s.dist.getD v 0, v) ∉ (relaxNbr u s (v, w)).frontier ∧
      (s.dist.getD u 0 + w, v) ∈ (relaxNbr u s (v, w)).frontier) := by
  constructor
  · intro n v
    have hi := stepN_inv hwf hsrc n
    apply filter_snd_len_le_one hi.hnd
    intro p hp q hq hpq
    have h1 := (hi.hfr p hp).2.1
    have h2 := (hi.hfr q hq).2.1
    obtain ⟨p1, p2⟩ := p
    obtain ⟨q1, q2⟩ := q
    simp only at h1 h2 hpq
    subst hpq
    rw [Prod.mk.injEq]
    exact ⟨by rw [h1, h2], rfl⟩
  · intro s u v w hs hc hIM
    exact relax_stale hs hc hIM

/-- C5 (witness): the claim instantiated on the 9-location reference graph
with source 0. -/
theorem claim_C5_witness :
    WFAdj refMap.adj refMap.L ∧ 0 < refMap.L ∧
    ((∀ n v, ((stepN refMap.adj (initState refMap.L 0) n).frontier.filter
        (fun q => q.2 == v)).length ≤ 1) ∧
     (∀ (s : DState) (u v : Nat) (w : Int), DInv refMap.adj refMap.L 0 s →
      s.dist.getD u 0 + w < s.dist.getD v 0 → s.dist.getD v 0 ≠ INTMAX →
      (s.dist.getD v 0, v) ∉ (relaxNbr u s (v, w)).frontier ∧
      (s.dist.getD u 0 + w, v) ∈ (relaxNbr u s (v, w)).frontier)) :=
  ⟨by decide, by decide, claim_C5 (by decide) (by decide)⟩

/-- C6 (confirmed): during every execution of the relaxation loop, each
`dist` entry is monotonically non-increasing from one iteration to the
next; every change is a strict decrease to a value below `INT_MAX` (so an
update either replaces the sentinel or strictly decreases a finite value),
and whenever `dist[v]` changes in an iteration, `parent[v]` is set in the
same iteration to the location popped at the start of that iteration. -/
theorem claim_C6 {m : Map} {src : Nat} (hwf : WFAdj m.adj m.L) (hsrc : src < m.L) :
    ∀ n v,
      (stepN m.adj (initState m.L src) (n + 1)).dist.getD v 0 ≤
        (stepN m.adj (initState m.L src) n).dist.getD v 0 ∧
      ((stepN m.adj (initState m.L src) (n + 1)).dist.getD v 0 ≠
          (stepN m.adj (initState m.L src) n).dist.getD v 0 →
        (stepN m.adj (initState m.L src) (n + 1)).dist.getD v 0 <
          (stepN m.adj (initState m.L src) n).dist.getD v 0 ∧
        (stepN m.adj (initState m.L src) (n + 1)).dist.getD v 0 < INTMAX ∧
        ∃ p rest, (stepN m.adj (initState m.L src) n).frontier = p :: rest ∧
          (stepN m.adj (initState m.L src) (n + 1)).parent.getD v (-1) = (p.2 : Int)) :=
  fun n v => dstep_mono hwf (stepN_inv hwf hsrc n) v

/-- C6 (witness): the claim instantiated on the 9-location reference graph
with source 0. -/
theorem claim_C6_witness :
    WFAdj refMap.adj refMap.L ∧ 0 < refMap.L ∧
    (∀ n v,
      (stepN refMap.adj (initState refMap.L 0) (n + 1)).dist.getD v 0 ≤
        (stepN refMap.adj (initState refMap.L 0) n).dist.getD v 0 ∧
      ((stepN refMap.adj (initState refMap.L 0) (n + 1)).dist.getD v 0 ≠
          (stepN refMap.adj (initState refMap.L 0) n).dist.getD v 0 →
        (stepN refMap.adj (initState refMap.L 0) (n + 1)).dist.getD v 0 <
          (stepN refMap.adj (initState refMap.L 0) n).dist.getD v 0 ∧
        (stepN refMap.adj (initState refMap.L 0) (n + 1)).dist.getD v 0 < INTMAX ∧
        ∃ p rest, (stepN refMap.adj (initState refMap.L 0) n).frontier = p :: rest ∧
          (stepN refMap.adj (initState refMap.L 0) (n + 1)).parent.getD v (-1) =
            (p.2 : Int))) :=
  ⟨by decide, by decide, claim_C6 (by decide) (by decide)⟩

/-- C7 (confirmed): for every location count and every sequence of
`addDist` calls with in-range endpoints, the built adjacency structure
contains `(v, w)` in `adj[u]` and `(u, w)` in `adj[v]` for every added
connection `(u, v, w)` — symmetric by construction.  Because the statement
quantifies over every edge list, applying it to each prefix of a sequence
gives the invariant after each individual call. -/
theorem claim_C7 (L : Nat) (edges : List (Nat × Nat × Int))
    (hE : ∀ e ∈ edges, e.1 < L ∧ e.2.1 < L) :
    ∀ e ∈ edges, (e.2.1, e.2.2) ∈ (buildMap L edges).adj.getD e.1 [] ∧
      (e.1, e.2.2) ∈ (buildMap L edges).adj.getD e.2.1 [] := by
  apply buildFold_symm
  intro e he
  have h := hE e he
  simpa [mkMap] using h

/-- The edge list hardcoded in `main`. -/
def refEdges : List (Nat × Nat × Int) :=
  [(0, 1, 4), (0, 7, 8), (1, 2, 8), (1, 7, 11), (2, 3, 7), (2, 8, 2), (2, 5, 4),
   (3, 4, 9), (3, 5, 14), (4, 5, 10), (5, 6, 2), (6, 7, 1), (6, 8, 6), (7, 8, 7)]

/-- C7 (witness): the claim instantiated on the 9-location reference edge
list. -/
theorem claim_C7_witness :
    (∀ e ∈ refEdges, e.1 < 9 ∧ e.2.1 < 9) ∧
    (∀ e ∈ refEdges, (e.2.1, e.2.2) ∈ (buildMap 9 refEdges).adj.getD e.1 [] ∧
      (e.1, e.2.2) ∈ (buildMap 9 refEdges).adj.getD e.2.1 []) :=
  ⟨by decide, claim_C7 9 refEdges (by decide)⟩

/-- C8 (confirmed): for every graph with well-formed adjacency and
non-negative connection weights and every in-range location `x`, a
completed query from `x` to `x` reports distance 0 and the path `[x]`. -/
theorem claim_C8 {m : Map} {x fuel : Nat} {out : Int × List Nat}
    (hwf : WFAdj m.adj m.L) (hnw : NonnegW m.adj) (hx : x < m.L)
    (hrun : m.dijkstra x x fuel = some out) :
    out = (0, [x]) :=
  dijkstra_self hwf hnw hx hrun

/-- C8 (witness): the claim instantiated on the 9-location reference graph
at location 3. -/
theorem claim_C8_witness :
    WFAdj refMap.adj refMap.L ∧ NonnegW refMap.adj ∧ 3 < refMap.L ∧
    refMap.dijkstra 3 3 100 = some (0, [3]) ∧
    ((0 : Int), ([3] : List Nat)) = (0, [3]) :=
  ⟨by decide, by decide, by decide, by decide,
    @claim_C8 refMap 3 100 (0, [3]) (by decide) (by decide) (by decide) (by decide)⟩

/-- C9 (confirmed): on the 9-location reference graph hardcoded in `main`,
the query with source 0 and destination 8 reports distance 14 and the path
`0, 1, 2, 8`, which is itself a walk of weight 14, and no walk from 0 to 8
weighs less than 14. -/
theorem claim_C9 :
    refMap.dijkstra 0 8 100 = some (14, [0, 1, 2, 8]) ∧
    Walk refMap.adj 0 8 14 ∧ (∀ c, Walk refMap.adj 0 8 c → 14 ≤ c) := by
  refine ⟨by decide, refWalk14, ?_⟩
  have hmin := @dijkstra_minimal refMap 0 8 100 (14, [0, 1, 2, 8]) (by decide)
    (by decide) (by decide) (by decide) ⟨14, refWalk14, by decide⟩ (by decide)
  exact fun c hc => hmin.2 c hc

/-- C10 (confirmed): for every graph with well-formed adjacency and
non-negative connection weights and every in-range source, the relaxation
loop terminates: after finitely many iterations (some sufficient fuel) the
run completes with an empty frontier. -/
theorem claim_C10 (m : Map) (src : Nat) (hwf : WFAdj m.adj m.L)
    (hnw : NonnegW m.adj) (hsrc : src < m.L) :
    ∃ fuel t, drun m.adj fuel (initState m.L src) = some t ∧ t.frontier = [] := by
  obtain ⟨hi1, hi2, hi3⟩ := init_inv m.adj hsrc
  obtain ⟨t, ht⟩ := drun_terminates hwf hnw
    (2 * sumD (initState m.L src).dist + (initState m.L src).frontier.length + 1)
    hi1 hi2 hi3 (by omega)
  exact ⟨_, t, ht, (drun_inv hwf _ hi1 ht).2⟩

/-- C10 (witness): the claim instantiated on the 9-location reference
graph with source 0. -/
theorem claim_C10_witness :
    WFAdj refMap.adj refMap.L ∧ NonnegW refMap.adj ∧ 0 < refMap.L ∧
    (∃ fuel t, drun refMap.adj fuel (initState refMap.L 0) = some t ∧
      t.frontier = []) :=
  ⟨by decide, by decide, by decide, claim_C10 refMap 0 (by decide) (by decide) (by decide)⟩
